import Mathlib

/-!
Shallow embedding of `src/repertoire_patcher.py`.

Conventions of the embedding:
* `chess.Board` is modelled by its move stack (the only board state the
  program itself manipulates); FEN serialization is an external concern of
  the chess library, so it is passed in as a parameter `fen : Board → String`.
* Moves (`chess.Move` objects and UCI strings alike) are modelled as `String`.
* Python `float` probabilities are modelled as exact rationals `ℚ`.
* Python functions that may mutate an argument are embedded as functions that
  also return the argument's post-state (`play_repertoire_move` returns the
  board, `get_most_common_positions` returns the node it was given).
* Exceptions are modelled with `Except Err`; the unbounded `while` loop of
  `get_most_common_unknown_positions` is given explicit fuel and returns
  `none` when the fuel runs out.
* The network call of `LichessApiCaller.call_api` is external; it is passed
  in as a parameter `api : Board → OracleResponse` giving the parsed JSON
  payload for each queried board.
-/

/-- A chess board, reduced to the data the program manipulates: its move
stack. `chess.Board()` is the empty stack. -/
structure Board where
  moveStack : List String
deriving DecidableEq

/-- `board.push(move)` / `board.push_uci(uci)`: appends a move to the stack. -/
def Board.push (b : Board) (m : String) : Board :=
  Board.mk (b.moveStack ++ [m])

/-- `board.copy()`: a fresh board with the same state (values are immutable
in the embedding, so a copy is the same value). -/
def Board.copy (b : Board) : Board := b

/-- The exceptions the program can raise. -/
inductive Err where
  /-- `Exception(f"Multiple moves defined at position after {board.move_stack}")`
  raised in `Repertoire.__init__`; carries the move stack it reports. -/
  | conflictingResponse (moveStack : List String)
  /-- `assert max_idx is not None` failing in `pop_most_probable_node`. -/
  | assertionError
  /-- `ZeroDivisionError` from `variation_num_games / total_num_games`. -/
  | zeroDivisionError
deriving DecidableEq

/-- `class PositionNode`: a board plus the probability that it arises. -/
structure PositionNode where
  board : Board
  probability : ℚ
deriving DecidableEq

/-- One entry of the `moves` array of a lichess explorer JSON payload. -/
structure OracleMove where
  uci : String
  white : Nat
  draws : Nat
  black : Nat
deriving DecidableEq

/-- The parsed JSON payload returned by the lichess explorer for one
position: aggregate counts plus the candidate-move entries. -/
structure OracleResponse where
  white : Nat
  draws : Nat
  black : Nat
  moves : List OracleMove
deriving DecidableEq

/-- The body of the `for move in response_object["moves"]` loop of
`get_most_common_moves_from_lichess`: each entry contributes
`(move["uci"], variation_num_games / total_num_games)`.  The division is
guarded exactly where Python would raise `ZeroDivisionError`. -/
def movesLoop (moves : List OracleMove) (total_num_games : Nat) :
    Except Err (List (String × ℚ)) :=
  match moves with
  | [] => .ok []
  | move :: rest =>
    let variation_num_games : Nat := move.white + move.draws + move.black
    if total_num_games = 0 then .error .zeroDivisionError
    else
      match movesLoop rest total_num_games with
      | .error e => .error e
      | .ok tail =>
        .ok ((move.uci, (variation_num_games : ℚ) / (total_num_games : ℚ)) :: tail)

/-- `get_most_common_moves_from_lichess(board)`: queries the oracle and turns
the payload into `(uci, relative_probability)` pairs. -/
def get_most_common_moves_from_lichess (api : Board → OracleResponse)
    (board : Board) : Except Err (List (String × ℚ)) :=
  let response_object := api board
  let total_num_games : Nat :=
    response_object.white + response_object.draws + response_object.black
  movesLoop response_object.moves total_num_games

/-- The body of the `for next_move in next_moves` loop of
`get_most_common_positions`: each candidate gets a fresh copy of the parent
board with the candidate move pushed, and probability
`position.probability * next_move[1]`. -/
def positionsLoop (position : PositionNode) (next_moves : List (String × ℚ)) :
    List PositionNode :=
  next_moves.map (fun next_move =>
    let next_board : Board := (Board.copy position.board).push next_move.1
    PositionNode.mk next_board (position.probability * next_move.2))

/-- `get_most_common_positions(position)`: expands a node into the nodes one
ply later.  The second component of the result is the post-state of the
`position` argument (it is only read, never written). -/
def get_most_common_positions (api : Board → OracleResponse)
    (position : PositionNode) :
    Except Err (List PositionNode × PositionNode) :=
  match get_most_common_moves_from_lichess api position.board with
  | .error e => .error e
  | .ok next_moves => .ok (positionsLoop position next_moves, position)

/-- The `for idx, position in enumerate(leaf_positions)` scan of
`pop_most_probable_node`, carrying `(max_idx, max_probability)` with
`max_probability` starting at `0` and a strict `>` comparison. -/
def popScan (leaf_positions : List PositionNode) (idx : Nat)
    (max_idx : Option Nat) (max_probability : ℚ) : Option Nat × ℚ :=
  match leaf_positions with
  | [] => (max_idx, max_probability)
  | position :: rest =>
    if max_probability < position.probability then
      popScan rest (idx + 1) (some idx) position.probability
    else
      popScan rest (idx + 1) max_idx max_probability

/-- `pop_most_probable_node(leaf_positions)`: returns the popped node and the
list with it removed, or `none` when the `assert max_idx is not None`
assertion fails because no node has positive probability. -/
def pop_most_probable_node (leaf_positions : List PositionNode) :
    Option (PositionNode × List PositionNode) :=
  match popScan leaf_positions 0 none 0 with
  | (none, _) => none
  | (some max_idx, _) =>
    match leaf_positions.get? max_idx with
    | none => none
    | some position => some (position, leaf_positions.eraseIdx max_idx)

/-- Lookup in a Python `dict[str, ...]` modelled as an association list. -/
def dictGet (d : List (String × String)) (k : String) : Option String :=
  match d with
  | [] => none
  | (k', v) :: rest => if k' = k then some v else dictGet rest k

/-- Assignment `d[k] = v` in a Python `dict`: replaces in place if the key
exists, appends otherwise. -/
def dictInsert (d : List (String × String)) (k : String) (v : String) :
    List (String × String) :=
  match d with
  | [] => [(k, v)]
  | (k', v') :: rest =>
    if k' = k then (k, v) :: rest else (k', v') :: dictInsert rest k v

/-- `class Repertoire`: the `response_map` from FEN to the prescribed move. -/
structure Repertoire where
  response_map : List (String × String)
deriving DecidableEq

/-- `play_repertoire_move(repertoire, board)`: looks the board's FEN up in
the response map; on a hit pushes the move and returns `True`, on a
`KeyError` returns `False`.  The second component is the post-state of the
board (advanced on a hit, untouched on a miss). -/
def play_repertoire_move (fen : Board → String) (repertoire : Repertoire)
    (board : Board) : Bool × Board :=
  match dictGet repertoire.response_map (fen board) with
  | some move => (true, board.push move)
  | none => (false, board)

/-- A `chess.pgn.GameNode`: a board plus the variations below it.  In
python-chess a child stores the move leading to it; here the edge to each
child is labelled with that move, so `node.variation(0).move` is the label of
the first edge and `node.variation(0).variations` are the grandchildren. -/
inductive PgnNode where
  | mk (board : Board) (variations : List (String × PgnNode))

/-- `node.board()`. -/
def PgnNode.board : PgnNode → Board
  | .mk b _ => b

/-- `node.variations`, as move-labelled edges. -/
def PgnNode.variations : PgnNode → List (String × PgnNode)
  | .mk _ vs => vs

/-- The `while pgn_nodes:` worklist loop of `Repertoire.__init__`.
The Python worklist pops from the end (`list.pop()`) and `extend`s at the
end; the embedding keeps the worklist reversed, so popping the head models
popping the Python list's last element and extending appends the reversed
grandchild list at the front. -/
def buildLoop (fen : Board → String) (d : List (String × String))
    (pgn_nodes : List PgnNode) : Except Err (List (String × String)) :=
  match pgn_nodes with
  | [] => .ok d
  | node :: rest =>
    if 1 < node.variations.length then
      .error (.conflictingResponse node.board.moveStack)
    else
      match h : node.variations with
      | [] => buildLoop fen d rest
      | (m, child) :: _ =>
        buildLoop fen (dictInsert d (fen node.board) m)
          ((child.variations.map Prod.snd).reverse ++ rest)
termination_by (pgn_nodes.map sizeOf).sum
decreasing_by
  · simp only [List.map_cons, List.sum_cons]
    have hn : 0 < sizeOf node := by
      cases node with
      | mk b vs =>
        simp only [PgnNode.mk.sizeOf_spec]
        omega
    omega
  · simp only [List.map_append, List.sum_append, List.map_reverse,
      List.sum_reverse, List.map_cons, List.sum_cons]
    have h1 : ∀ vs : List (String × PgnNode),
        ((vs.map Prod.snd).map sizeOf).sum < sizeOf vs := by
      intro vs
      induction vs with
      | nil => simp
      | cons hd tl ih =>
        obtain ⟨m, c⟩ := hd
        simp only [List.map_cons, List.sum_cons, List.cons.sizeOf_spec,
          Prod.mk.sizeOf_spec]
        omega
    have h2 : ∀ n : PgnNode, sizeOf n.variations < sizeOf n := by
      intro n
      cases n with
      | mk b vs =>
        simp only [PgnNode.variations, PgnNode.mk.sizeOf_spec]
        omega
    have h3 : sizeOf child < sizeOf node.variations := by
      rw [h]
      simp only [List.cons.sizeOf_spec, Prod.mk.sizeOf_spec]
      omega
    have h4 := h2 node
    have h5 := h1 child.variations
    have h6 := h2 child
    omega

/-- `pgn_nodes = game.variations if is_black else [game]` (the initial
worklist of `Repertoire.__init__` for one game). -/
def pgnNodesInit (game : PgnNode) (is_black : Bool) : List PgnNode :=
  if is_black then game.variations.map Prod.snd else [game]

/-- The `while True` loop over the games of the PGN file in
`Repertoire.__init__`, threading the accumulated `response_map`. -/
def buildGames (fen : Board → String) (d : List (String × String))
    (games : List PgnNode) (is_black : Bool) :
    Except Err (List (String × String)) :=
  match games with
  | [] => .ok d
  | game :: rest =>
    match buildLoop fen d (pgnNodesInit game is_black).reverse with
    | .error e => .error e
    | .ok d' => buildGames fen d' rest is_black

/-- `Repertoire.__init__(pgn_file_path, is_black)`, taking the already-parsed
games of the PGN file (parsing belongs to python-chess and is out of
scope). -/
def Repertoire.init (fen : Board → String) (games : List PgnNode)
    (is_black : Bool) : Except Err Repertoire :=
  match buildGames fen [] games is_black with
  | .error e => .error e
  | .ok d => .ok (Repertoire.mk d)

/-- A conflict the build-time traversal can reach inside one worklist root:
either this node itself prescribes two or more continuations (the error
reports its move stack), or it has exactly one continuation and the conflict
sits below one of that continuation's children — mirroring that the
traversal only descends through unique continuations and skips one ply. -/
inductive ConflictAt : PgnNode → List String → Prop where
  | here (b : Board) (vars : List (String × PgnNode)) :
      1 < vars.length → ConflictAt (PgnNode.mk b vars) b.moveStack
  | there (b : Board) (m : String) (c : PgnNode) (e : String × PgnNode)
      (ms : List String) :
      e ∈ c.variations → ConflictAt e.2 ms →
      ConflictAt (PgnNode.mk b [(m, c)]) ms

/-- `initial_position = PositionNode(chess.Board(), 1)`. -/
def initial_position : PositionNode := PositionNode.mk (Board.mk []) 1

/-- The `while leaf_positions:` main loop of
`get_most_common_unknown_positions`, with explicit fuel (`none` when the
fuel runs out).  On normal return it yields the `unknown_positions` result
list together with the `leaf_positions` frontier left at that moment. -/
def searchLoop (fen : Board → String) (api : Board → OracleResponse)
    (repertoire : Repertoire) (num_positions : Nat) (fuel : Nat)
    (leaf_positions unknown_positions : List PositionNode) :
    Option (Except Err (List PositionNode × List PositionNode)) :=
  match leaf_positions with
  | [] => some (.ok (unknown_positions, []))
  | _ :: _ =>
    match fuel with
    | 0 => none
    | fuel' + 1 =>
      match pop_most_probable_node leaf_positions with
      | none => some (.error .assertionError)
      | some (node, remaining) =>
        match play_repertoire_move fen repertoire node.board with
        | (true, advanced) =>
          match get_most_common_positions api
              (PositionNode.mk advanced node.probability) with
          | .error e => some (.error e)
          | .ok (children, _) =>
            searchLoop fen api repertoire num_positions fuel'
              (remaining ++ children) unknown_positions
        | (false, _) =>
          let appended := unknown_positions ++ [node]
          if appended.length = num_positions then some (.ok (appended, remaining))
          else searchLoop fen api repertoire num_positions fuel' remaining appended

/-- `get_most_common_unknown_positions(pgn_file_path, is_black,
num_positions)`, over the parsed games of the file. -/
def get_most_common_unknown_positions (fen : Board → String)
    (api : Board → OracleResponse) (games : List PgnNode) (is_black : Bool)
    (num_positions : Nat) (fuel : Nat) :
    Option (Except Err (List PositionNode)) :=
  match Repertoire.init fen games is_black with
  | .error e => some (.error e)
  | .ok repertoire =>
    match (if is_black then
             Except.map Prod.fst (get_most_common_positions api initial_position)
           else .ok [initial_position]) with
    | .error e => some (.error e)
    | .ok leaf_positions =>
      Option.map (Except.map Prod.fst)
        (searchLoop fen api repertoire num_positions fuel leaf_positions [])

/-! Concrete instances used by witnesses and counterexamples. -/

/-- A concrete FEN function for the example boards (injective on the boards
the examples reach). -/
def exFen (b : Board) : String :=
  match b.moveStack with
  | [] => "start"
  | ["d2d4"] => "after-d4"
  | ["d2d4", "g8f6"] => "after-d4-Nf6"
  | _ => "other"

/-- A one-chapter repertoire PGN holding the single line `1.d4`. -/
def exGame : PgnNode :=
  PgnNode.mk (Board.mk []) [("d2d4", PgnNode.mk (Board.mk [("d2d4")]) [])]

/-- An oracle payload dump: after `1.d4` the only listed reply is `g8f6`
with zero recorded games out of one game in total; elsewhere no data. -/
def exApi (b : Board) : OracleResponse :=
  if b.moveStack = [("d2d4")] then
    OracleResponse.mk 1 0 0 [OracleMove.mk ("g8f6") 0 0 0]
  else OracleResponse.mk 0 0 0 []

/-- An oracle answering every query with the single reply `e2e4` played in
one game out of two recorded games (relative probability 1/2). -/
def exApiHalf (_ : Board) : OracleResponse :=
  OracleResponse.mk 1 0 1 [OracleMove.mk ("e2e4") 1 0 0]

/-- An oracle with no recorded games anywhere. -/
def exApiEmpty (_ : Board) : OracleResponse := OracleResponse.mk 0 0 0 []

/-- A game prescribing two continuations from the starting position. -/
def exConflictGame : PgnNode :=
  PgnNode.mk (Board.mk [])
    [("d2d4", PgnNode.mk (Board.mk [("d2d4")]) []),
     ("e2e4", PgnNode.mk (Board.mk [("e2e4")]) [])]

/-- The repertoire index built from `exGame` with `exFen`. -/
def exRepertoire : Repertoire := Repertoire.mk [("start", "d2d4")]

/-! Theorems. -/

/-- C4: if the board's FEN is a key of the repertoire index,
`play_repertoire_move` pushes the prescribed move onto the board and returns
`True`; otherwise it returns `False` with the board unchanged.  The ordinary
not-found case is the caught `KeyError`: the embedding is total, returning
`False` rather than propagating any exception. -/
theorem play_repertoire_move_hit_miss (fen : Board → String)
    (repertoire : Repertoire) (board : Board) :
    (∀ m, dictGet repertoire.response_map (fen board) = some m →
      play_repertoire_move fen repertoire board = (true, board.push m)) ∧
    (dictGet repertoire.response_map (fen board) = none →
      play_repertoire_move fen repertoire board = (false, board)) := by
  constructor
  · intro m hm
    simp [play_repertoire_move, hm]
  · intro hm
    simp [play_repertoire_move, hm]

theorem play_repertoire_move_hit_miss_witness :
    play_repertoire_move exFen exRepertoire (Board.mk []) =
      (true, Board.mk [("d2d4")]) :=
  (play_repertoire_move_hit_miss exFen exRepertoire (Board.mk [])).1
    ("d2d4") (by decide)

/-- C6: at a response whose total recorded game count is zero but which still
lists a candidate move, the relative-probability computation divides by zero,
so the call raises `ZeroDivisionError` instead of treating the position as
having no data.  Only when the `moves` array is also empty does the function
return no candidates as the claim describes. -/
theorem lichess_zero_total_divides_by_zero :
    get_most_common_moves_from_lichess
        (fun _ => OracleResponse.mk 0 0 0 [OracleMove.mk ("e2e4") 0 0 0])
        (Board.mk []) = .error .zeroDivisionError ∧
    get_most_common_moves_from_lichess (fun _ => OracleResponse.mk 0 0 0 [])
        (Board.mk []) = .ok [] := by
  exact ⟨rfl, rfl⟩

/-- C10: `get_most_common_positions` does not mutate the parent node: the
post-state it returns for its argument is the argument itself (same board,
same probability), and each returned child holds a fresh copy of the
parent's board with exactly that child's candidate move pushed. -/
theorem get_most_common_positions_frame (api : Board → OracleResponse)
    (position : PositionNode) (next_moves : List (String × ℚ))
    (h : get_most_common_moves_from_lichess api position.board = .ok next_moves) :
    get_most_common_positions api position =
      .ok (next_moves.map (fun next_move =>
        PositionNode.mk (position.board.push next_move.1)
          (position.probability * next_move.2)), position) := by
  simp [get_most_common_positions, h, positionsLoop, Board.copy]

theorem get_most_common_positions_frame_witness :
    get_most_common_positions exApiHalf (PositionNode.mk (Board.mk []) 1) =
      .ok ([PositionNode.mk (Board.mk [("e2e4")]) (1 * (1 / 2))],
        PositionNode.mk (Board.mk []) 1) := by
  have h := get_most_common_positions_frame exApiHalf
    (PositionNode.mk (Board.mk []) 1) [("e2e4", 1 / 2)]
    (by norm_num [get_most_common_moves_from_lichess, movesLoop, exApiHalf])
  simpa [Board.push] using h

/-- C8: the probabilities of the children created by one expansion sum to
the parent's probability times the sum of the oracle's relative
probabilities; and whenever those relative probabilities are non-negative
and sum to at most 1, that total is at most the parent's probability (the
parent's own probability being non-negative, as the data model prescribes
for every position node). -/
theorem expansion_probability_conservation (api : Board → OracleResponse)
    (position : PositionNode) (next_moves : List (String × ℚ))
    (children : List PositionNode) (post : PositionNode)
    (hmoves : get_most_common_moves_from_lichess api position.board = .ok next_moves)
    (hok : get_most_common_positions api position = .ok (children, post)) :
    (children.map PositionNode.probability).sum =
      position.probability * (next_moves.map Prod.snd).sum ∧
    ((∀ r ∈ next_moves.map Prod.snd, 0 ≤ r) →
      (next_moves.map Prod.snd).sum ≤ 1 → 0 ≤ position.probability →
      (children.map PositionNode.probability).sum ≤ position.probability) := by
  have hch : children = positionsLoop position next_moves := by
    simp [get_most_common_positions, hmoves] at hok
    exact hok.1.symm
  subst hch
  have hsum : ((positionsLoop position next_moves).map
      PositionNode.probability).sum =
      position.probability * (next_moves.map Prod.snd).sum := by
    simp only [positionsLoop, List.map_map]
    rw [show ((fun x => PositionNode.probability x) ∘ fun next_move =>
        PositionNode.mk ((Board.copy position.board).push next_move.1)
          (position.probability * next_move.2)) =
        (fun next_move : String × ℚ =>
          position.probability * next_move.2) from rfl]
    exact List.sum_map_mul_left next_moves Prod.snd position.probability
  refine ⟨hsum, ?_⟩
  intro _ hle hp
  rw [hsum]
  exact mul_le_of_le_one_right hp hle

theorem expansion_probability_conservation_witness :
    (([PositionNode.mk (Board.mk [("e2e4")]) (1 * (1 / 2))].map
        PositionNode.probability).sum =
      (1 : ℚ) * ([(("e2e4" : String), (1 : ℚ) / 2)].map Prod.snd).sum) ∧
    (([PositionNode.mk (Board.mk [("e2e4")]) (1 * (1 / 2))].map
        PositionNode.probability).sum ≤ (1 : ℚ)) := by
  have h := expansion_probability_conservation exApiHalf
    (PositionNode.mk (Board.mk []) 1) [("e2e4", 1 / 2)]
    [PositionNode.mk (Board.mk [("e2e4")]) (1 * (1 / 2))]
    (PositionNode.mk (Board.mk []) 1)
    (by norm_num [get_most_common_moves_from_lichess, movesLoop, exApiHalf])
    (by norm_num [get_most_common_positions, get_most_common_moves_from_lichess,
      movesLoop, exApiHalf, positionsLoop, Board.copy, Board.push])
  exact ⟨h.1, h.2 (by norm_num) (by norm_num) (by norm_num)⟩

/-- C9 (amended): the seed node's probability is 1, inside (0, 1]; and a
parent whose probability lies in (0, 1], expanded against an oracle answer
whose relative probabilities are all positive and sum to at most 1, creates
only children whose probabilities lie in (0, 1].  The amendment restricts
the oracle's candidates to positive relative probabilities: a listed
candidate with zero recorded games creates a child of probability exactly 0
(see the counterexample), which the unamended claim excludes. -/
theorem created_node_probability_unit (api : Board → OracleResponse)
    (position : PositionNode) (next_moves : List (String × ℚ))
    (children : List PositionNode) (post : PositionNode)
    (hp0 : 0 < position.probability) (hp1 : position.probability ≤ 1)
    (hmoves : get_most_common_moves_from_lichess api position.board = .ok next_moves)
    (hok : get_most_common_positions api position = .ok (children, post))
    (hpos : ∀ r ∈ next_moves.map Prod.snd, 0 < r)
    (hsum : (next_moves.map Prod.snd).sum ≤ 1) :
    (0 < initial_position.probability ∧ initial_position.probability ≤ 1) ∧
    ∀ child ∈ children, 0 < child.probability ∧ child.probability ≤ 1 := by
  have hch : children = positionsLoop position next_moves := by
    simp [get_most_common_positions, hmoves] at hok
    exact hok.1.symm
  subst hch
  refine ⟨⟨by norm_num [initial_position], by norm_num [initial_position]⟩, ?_⟩
  intro child hchild
  simp only [positionsLoop, List.mem_map] at hchild
  obtain ⟨nm, hnm, rfl⟩ := hchild
  have hr0 : 0 < nm.2 := hpos nm.2 (List.mem_map_of_mem Prod.snd hnm)
  have hrsum : nm.2 ≤ (next_moves.map Prod.snd).sum := by
    refine List.single_le_sum ?_ nm.2 (List.mem_map_of_mem Prod.snd hnm)
    intro r hr
    exact le_of_lt (hpos r hr)
  constructor
  · exact mul_pos hp0 hr0
  · calc position.probability * nm.2 ≤ 1 * 1 :=
        mul_le_mul hp1 (hrsum.trans hsum) (le_of_lt hr0) (by norm_num)
    _ = 1 := by norm_num

theorem created_node_probability_unit_witness :
    ((0 : ℚ) < initial_position.probability ∧
      initial_position.probability ≤ 1) ∧
    ∀ child ∈ [PositionNode.mk (Board.mk [("e2e4")]) (1 * (1 / 2))],
      0 < child.probability ∧ child.probability ≤ 1 :=
  created_node_probability_unit exApiHalf (PositionNode.mk (Board.mk []) 1)
    [("e2e4", 1 / 2)] [PositionNode.mk (Board.mk [("e2e4")]) (1 * (1 / 2))]
    (PositionNode.mk (Board.mk []) 1) (by norm_num) (by norm_num)
    (by norm_num [get_most_common_moves_from_lichess, movesLoop, exApiHalf])
    (by norm_num [get_most_common_positions, get_most_common_moves_from_lichess,
      movesLoop, exApiHalf, positionsLoop, Board.copy, Board.push])
    (by norm_num) (by norm_num)

/-- C9 counterexample: expanding the position after `1.d4` (a node of
probability 1, exactly the node the search run of `exGame` expands) against
an oracle whose only listed candidate carries zero games creates a child
node of probability 0, which does not lie in the half-open interval
(0, 1]. -/
theorem created_node_zero_probability :
    get_most_common_positions exApi (PositionNode.mk (Board.mk [("d2d4")]) 1) =
      .ok ([PositionNode.mk (Board.mk [("d2d4"), ("g8f6")]) 0],
        PositionNode.mk (Board.mk [("d2d4")]) 1) ∧
    ¬ (0 < (PositionNode.mk (Board.mk [("d2d4"), ("g8f6")]) 0).probability) := by
  constructor
  · norm_num [get_most_common_positions, get_most_common_moves_from_lichess,
      movesLoop, exApi, positionsLoop, Board.copy, Board.push]
  · norm_num

/-- C5: the no-positive-probability assertion in `pop_most_probable_node` is
reachable from `get_most_common_unknown_positions` even though the loop
guard holds.  With the repertoire holding the single line `1.d4` and an
oracle whose only listed reply after `1.d4` has zero recorded games, the
frontier comes to hold exactly one node, of probability 0, and the next
iteration pops on that non-empty frontier and fails with `AssertionError` —
contradicting the code's own `assert max_idx is not None`. -/
theorem search_assertion_reachable :
    get_most_common_unknown_positions exFen exApi [exGame] false 3 10 =
      some (.error .assertionError) := by
  have hrep : Repertoire.init exFen [exGame] false = .ok exRepertoire := by
    simp [Repertoire.init, buildGames, pgnNodesInit, exGame, buildLoop,
      dictInsert, PgnNode.variations, PgnNode.board, exFen, exRepertoire]
  rw [get_most_common_unknown_positions, hrep]
  norm_num [searchLoop, pop_most_probable_node, popScan, play_repertoire_move,
    dictGet, get_most_common_positions, get_most_common_moves_from_lichess,
    movesLoop, positionsLoop, Board.copy, Board.push, exFen, exApi,
    exRepertoire, initial_position, Except.map]

/-- C1 counterexample: with requested count 0, the early-return check
`len(unknown_positions) == num_positions` is tested only after an append,
when the length is already 1, so it can never fire; on an empty repertoire
the search returns one uncovered position — strictly more than the
requested 0. -/
theorem search_zero_request_overflows :
    get_most_common_unknown_positions exFen exApiEmpty [] false 0 10 =
      some (.ok [initial_position]) ∧
    ¬ (([initial_position] : List PositionNode).length ≤ 0) := by
  constructor
  · rw [get_most_common_unknown_positions]
    norm_num [Repertoire.init, buildGames, searchLoop, pop_most_probable_node,
      popScan, play_repertoire_move, dictGet, initial_position, Except.map]
  · simp

theorem eraseIdx_append_length {α : Type} (l1 : List α) (x : α) (l2 : List α) :
    (l1 ++ x :: l2).eraseIdx l1.length = l1 ++ l2 := by
  induction l1 with
  | nil => rfl
  | cons hd tl ih =>
    simp only [List.cons_append, List.eraseIdx, List.length_cons,
      List.append_eq, ih]

theorem get?_append_length {α : Type} (l1 : List α) (x : α) (l2 : List α) :
    (l1 ++ x :: l2).get? l1.length = some x := by
  induction l1 with
  | nil => rfl
  | cons hd tl ih => simpa using ih

theorem getElem_append_length {α : Type} (l1 : List α) (x : α) (l2 : List α)
    (h : l1.length < (l1 ++ x :: l2).length) :
    (l1 ++ x :: l2)[l1.length] = x := by
  induction l1 with
  | nil => rfl
  | cons hd tl ih =>
    simp only [List.cons_append, List.length_cons, List.getElem_cons_succ]
    exact ih (by simp only [List.length_append, List.length_cons]; omega)

theorem popScan_no_update (l : List PositionNode) :
    ∀ (idx : Nat) (mi : Option Nat) (mp : ℚ),
    (∀ x ∈ l, x.probability ≤ mp) → popScan l idx mi mp = (mi, mp) := by
  induction l with
  | nil => intro idx mi mp _; rfl
  | cons hd tl ih =>
    intro idx mi mp h
    have h1 : ¬ mp < hd.probability := not_lt.mpr (h hd (List.mem_cons_self hd tl))
    rw [popScan, if_neg h1]
    exact ih (idx + 1) mi mp (fun x hx => h x (List.mem_cons_of_mem hd hx))

theorem popScan_finds_max (l : List PositionNode) :
    ∀ (idx : Nat) (mi : Option Nat) (mp : ℚ),
    (∃ x ∈ l, mp < x.probability) →
    ∃ before node after,
      l = before ++ node :: after ∧
      popScan l idx mi mp = (some (idx + before.length), node.probability) ∧
      (∀ y ∈ l, y.probability ≤ node.probability) ∧
      (∀ y ∈ before, y.probability < node.probability) ∧
      mp < node.probability := by
  induction l with
  | nil =>
    intro idx mi mp h
    simp at h
  | cons hd tl ih =>
    intro idx mi mp h
    by_cases hc : mp < hd.probability
    · by_cases hr : ∃ y ∈ tl, hd.probability < y.probability
      · obtain ⟨b, n, a, htl, hsc, hmax, hfirst, hlt⟩ :=
          ih (idx + 1) (some idx) hd.probability hr
        refine ⟨hd :: b, n, a, by rw [htl, List.cons_append], ?_, ?_, ?_,
          lt_trans hc hlt⟩
        · rw [popScan, if_pos hc, hsc]
          refine congrArg (fun i => (some i, n.probability)) ?_
          simp only [List.length_cons]
          omega
        · intro y hy
          rcases List.mem_cons.mp hy with rfl | hy
          · exact le_of_lt hlt
          · exact hmax y hy
        · intro y hy
          rcases List.mem_cons.mp hy with rfl | hy
          · exact hlt
          · exact hfirst y hy
      · push_neg at hr
        refine ⟨[], hd, tl, rfl, ?_, ?_,
          fun y hy => absurd hy (List.not_mem_nil y), hc⟩
        · rw [popScan, if_pos hc, popScan_no_update tl (idx + 1) (some idx)
            hd.probability hr]
          simp
        · intro y hy
          rcases List.mem_cons.mp hy with rfl | hy
          · exact le_refl _
          · exact hr y hy
    · obtain ⟨x, hx, hxp⟩ := h
      have hxtl : x ∈ tl := by
        rcases List.mem_cons.mp hx with rfl | hx
        · exact absurd hxp hc
        · exact hx
      obtain ⟨b, n, a, htl, hsc, hmax, hfirst, hlt⟩ :=
        ih (idx + 1) mi mp ⟨x, hxtl, hxp⟩
      have hhd : hd.probability ≤ mp := not_lt.mp hc
      refine ⟨hd :: b, n, a, by rw [htl, List.cons_append], ?_, ?_, ?_, hlt⟩
      · rw [popScan, if_neg hc, hsc]
        refine congrArg (fun i => (some i, n.probability)) ?_
        simp only [List.length_cons]
        omega
      · intro y hy
        rcases List.mem_cons.mp hy with rfl | hy
        · exact le_of_lt (lt_of_le_of_lt hhd hlt)
        · exact hmax y hy
      · intro y hy
        rcases List.mem_cons.mp hy with rfl | hy
        · exact lt_of_le_of_lt hhd hlt
        · exact hfirst y hy

/-- C7: on a frontier containing a node of positive probability,
`pop_most_probable_node` removes from the list and returns a node whose
probability is the maximum over the whole list, and it is the first node
attaining that maximum in iteration order (every node before it is strictly
less probable).  Determinism holds because the embedding is a function of
the list alone. -/
theorem pop_most_probable_node_spec (leaf_positions : List PositionNode)
    (h : ∃ x ∈ leaf_positions, 0 < x.probability) :
    ∃ before node after,
      leaf_positions = before ++ node :: after ∧
      pop_most_probable_node leaf_positions = some (node, before ++ after) ∧
      (∀ y ∈ leaf_positions, y.probability ≤ node.probability) ∧
      ∀ y ∈ before, y.probability < node.probability := by
  obtain ⟨b, n, a, hl, hsc, hmax, hfirst, _⟩ := popScan_finds_max
    leaf_positions 0 none 0 h
  simp only [Nat.zero_add] at hsc
  refine ⟨b, n, a, hl, ?_, hmax, hfirst⟩
  rw [hl] at hsc ⊢
  simp only [pop_most_probable_node, hsc, get?_append_length,
    eraseIdx_append_length, getElem_append_length, Option.some.injEq,
    Prod.mk.injEq]

theorem pop_most_probable_node_spec_witness :
    ∃ before node after,
      ([PositionNode.mk (Board.mk []) (1 / 2),
        PositionNode.mk (Board.mk [("a2a4")]) (3 / 4),
        PositionNode.mk (Board.mk [("b2b4")]) (3 / 4)] : List PositionNode) =
        before ++ node :: after ∧
      pop_most_probable_node
        [PositionNode.mk (Board.mk []) (1 / 2),
         PositionNode.mk (Board.mk [("a2a4")]) (3 / 4),
         PositionNode.mk (Board.mk [("b2b4")]) (3 / 4)] =
        some (node, before ++ after) ∧
      (∀ y ∈ ([PositionNode.mk (Board.mk []) (1 / 2),
          PositionNode.mk (Board.mk [("a2a4")]) (3 / 4),
          PositionNode.mk (Board.mk [("b2b4")]) (3 / 4)] : List PositionNode),
        y.probability ≤ node.probability) ∧
      ∀ y ∈ before, y.probability < node.probability :=
  pop_most_probable_node_spec
    [PositionNode.mk (Board.mk []) (1 / 2),
     PositionNode.mk (Board.mk [("a2a4")]) (3 / 4),
     PositionNode.mk (Board.mk [("b2b4")]) (3 / 4)]
    ⟨PositionNode.mk (Board.mk []) (1 / 2), by simp, by norm_num⟩

/-- C2: one iteration of the main loop.  If the popped node's position has a
prescribed move in the repertoire index, the engine advances the node's
board by that move, queries the oracle on the resulting position, inserts
into the frontier one new node per returned candidate with probability
parent × relative probability, and leaves the result list untouched (the
covered node is never emitted); if it has no prescribed move, the node is
appended to the result list, and the function returns that list immediately
once it reaches the requested size, leaving the remaining frontier
unexplored. -/
theorem searchLoop_step (fen : Board → String) (api : Board → OracleResponse)
    (repertoire : Repertoire) (num_positions fuel : Nat)
    (leaf_positions unknown_positions : List PositionNode)
    (node : PositionNode) (remaining : List PositionNode)
    (hpop : pop_most_probable_node leaf_positions = some (node, remaining)) :
    (∀ m next_moves,
      dictGet repertoire.response_map (fen node.board) = some m →
      get_most_common_moves_from_lichess api (node.board.push m) =
        .ok next_moves →
      searchLoop fen api repertoire num_positions (fuel + 1) leaf_positions
          unknown_positions =
        searchLoop fen api repertoire num_positions fuel
          (remaining ++ next_moves.map (fun c =>
            PositionNode.mk ((node.board.push m).push c.1)
              (node.probability * c.2)))
          unknown_positions) ∧
    (dictGet repertoire.response_map (fen node.board) = none →
      ((unknown_positions ++ [node]).length = num_positions →
        searchLoop fen api repertoire num_positions (fuel + 1) leaf_positions
            unknown_positions =
          some (.ok (unknown_positions ++ [node], remaining))) ∧
      ((unknown_positions ++ [node]).length ≠ num_positions →
        searchLoop fen api repertoire num_positions (fuel + 1) leaf_positions
            unknown_positions =
          searchLoop fen api repertoire num_positions fuel remaining
            (unknown_positions ++ [node]))) := by
  obtain ⟨hd, tl, rfl⟩ : ∃ hd tl, leaf_positions = hd :: tl := by
    cases leaf_positions with
    | nil => simp [pop_most_probable_node, popScan] at hpop
    | cons hd tl => exact ⟨hd, tl, rfl⟩
  refine ⟨?_, ?_⟩
  · intro m next_moves hm hor
    simp only [searchLoop, hpop, play_repertoire_move, hm,
      get_most_common_positions, hor, positionsLoop, Board.copy]
  · intro hm
    refine ⟨?_, ?_⟩
    · intro hlen
      simp only [searchLoop, hpop, play_repertoire_move, hm, if_pos hlen]
    · intro hlen
      simp only [searchLoop, hpop, play_repertoire_move, hm, if_neg hlen]

theorem searchLoop_step_witness :
    searchLoop exFen exApiHalf exRepertoire 5 (3 + 1) [initial_position] [] =
      searchLoop exFen exApiHalf exRepertoire 5 3
        ([] ++ ([(("e2e4" : String), (1 : ℚ) / 2)].map (fun c =>
          PositionNode.mk ((initial_position.board.push ("d2d4")).push c.1)
            (initial_position.probability * c.2)))) [] :=
  (searchLoop_step exFen exApiHalf exRepertoire 5 3 [initial_position] []
    initial_position [] (by rfl)).1 ("d2d4") [("e2e4", 1 / 2)] (by decide)
    (by norm_num [get_most_common_moves_from_lichess, movesLoop, exApiHalf])

theorem searchLoop_length_invariant (fen : Board → String)
    (api : Board → OracleResponse) (repertoire : Repertoire)
    (num_positions : Nat) :
    ∀ (fuel : Nat) (leaf_positions unknown_positions result rest :
        List PositionNode),
    unknown_positions.length < num_positions →
    searchLoop fen api repertoire num_positions fuel leaf_positions
        unknown_positions = some (.ok (result, rest)) →
    result.length = num_positions ∨
      (result.length < num_positions ∧ rest = []) := by
  intro fuel
  induction fuel with
  | zero =>
    intro leaf acc result rest hlt hrun
    cases leaf with
    | nil =>
      simp only [searchLoop, Option.some.injEq, Except.ok.injEq,
        Prod.mk.injEq] at hrun
      right
      exact ⟨hrun.1 ▸ hlt, hrun.2.symm⟩
    | cons hd tl => simp [searchLoop] at hrun
  | succ fuel ih =>
    intro leaf acc result rest hlt hrun
    cases leaf with
    | nil =>
      simp only [searchLoop, Option.some.injEq, Except.ok.injEq,
        Prod.mk.injEq] at hrun
      right
      exact ⟨hrun.1 ▸ hlt, hrun.2.symm⟩
    | cons hd tl =>
      simp only [searchLoop] at hrun
      cases hpop : pop_most_probable_node (hd :: tl) with
      | none => simp [hpop] at hrun
      | some pr =>
        obtain ⟨node, remaining⟩ := pr
        simp only [hpop] at hrun
        rcases hplay : play_repertoire_move fen repertoire node.board with
          ⟨found, board'⟩
        cases found with
        | true =>
          simp only [hplay] at hrun
          cases hg : get_most_common_positions api
              (PositionNode.mk board' node.probability) with
          | error e => simp [hg] at hrun
          | ok pr2 =>
            obtain ⟨children, post⟩ := pr2
            simp only [hg] at hrun
            exact ih (remaining ++ children) acc result rest hlt hrun
        | false =>
          simp only [hplay] at hrun
          by_cases hlen : (acc ++ [node]).length = num_positions
          · rw [if_pos hlen] at hrun
            simp only [Option.some.injEq, Except.ok.injEq,
              Prod.mk.injEq] at hrun
            left
            rw [← hrun.1]
            exact hlen
          · rw [if_neg hlen] at hrun
            refine ih remaining (acc ++ [node]) result rest ?_ hrun
            have hx : (acc ++ [node]).length = acc.length + 1 := by simp
            omega

/-- C1 (amended): for every requested count of at least 1, the search result
never exceeds the requested size; it is exactly `num_positions` whenever a
non-empty frontier remains at return (the frontier did not exhaust first),
and whenever the result falls short of the request the frontier has emptied.
The amendment restricts the count to be at least 1: with `num_positions = 0`
the early-return check `len(unknown_positions) == num_positions` can never
fire, and the function returns more than requested (see the
counterexample). -/
theorem search_result_size (fen : Board → String)
    (api : Board → OracleResponse) (games : List PgnNode) (is_black : Bool)
    (num_positions fuel : Nat) (hk : 1 ≤ num_positions) :
    (∀ result, get_most_common_unknown_positions fen api games is_black
        num_positions fuel = some (.ok result) →
      result.length ≤ num_positions) ∧
    (∀ repertoire leaf_positions result rest,
      searchLoop fen api repertoire num_positions fuel leaf_positions [] =
        some (.ok (result, rest)) →
      result.length ≤ num_positions ∧
      (rest ≠ [] → result.length = num_positions) ∧
      (result.length < num_positions → rest = [])) := by
  have main : ∀ (repertoire : Repertoire)
      (leaf result rest : List PositionNode),
      searchLoop fen api repertoire num_positions fuel leaf [] =
        some (.ok (result, rest)) →
      result.length = num_positions ∨
        (result.length < num_positions ∧ rest = []) := by
    intro repertoire leaf result rest hrun
    exact searchLoop_length_invariant fen api repertoire num_positions fuel
      leaf [] result rest (by simpa using hk) hrun
  constructor
  · intro result hrun
    rw [get_most_common_unknown_positions] at hrun
    cases hrep : Repertoire.init fen games is_black with
    | error e => simp [hrep] at hrun
    | ok repertoire =>
      simp only [hrep] at hrun
      cases hinit : (if is_black then
          Except.map Prod.fst (get_most_common_positions api initial_position)
        else .ok [initial_position]) with
      | error e => simp [hinit] at hrun
      | ok leaf =>
        simp only [hinit] at hrun
        rw [Option.map_eq_some'] at hrun
        obtain ⟨y, hy, hmap⟩ := hrun
        cases y with
        | error e => simp [Except.map] at hmap
        | ok pr =>
          obtain ⟨result', rest⟩ := pr
          simp only [Except.map, Except.ok.injEq] at hmap
          rcases main repertoire leaf result' rest hy with h1 | ⟨h1, _⟩ <;>
            rw [← hmap] <;> omega
  · intro repertoire leaf result rest hrun
    rcases main repertoire leaf result rest hrun with h1 | ⟨h1, h2⟩
    · exact ⟨le_of_eq h1, fun _ => h1, fun hlt => absurd h1 (by omega)⟩
    · exact ⟨le_of_lt h1, fun hne => absurd h2 hne, fun _ => h2⟩

theorem search_result_size_witness :
    ([initial_position] : List PositionNode).length ≤ 1 :=
  (search_result_size exFen exApiEmpty [] false 1 10 (by norm_num)).1
    [initial_position]
    (by rw [get_most_common_unknown_positions]
        norm_num [Repertoire.init, buildGames, searchLoop,
          pop_most_probable_node, popScan, play_repertoire_move, dictGet,
          initial_position, Except.map])

theorem buildLoop_cons_conflict (fen : Board → String)
    (d : List (String × String)) (node : PgnNode) (rest : List PgnNode)
    (h : 1 < node.variations.length) :
    buildLoop fen d (node :: rest) =
      .error (.conflictingResponse node.board.moveStack) := by
  rw [buildLoop, if_pos h]

theorem buildLoop_cons_leaf (fen : Board → String)
    (d : List (String × String)) (node : PgnNode) (rest : List PgnNode)
    (h1 : ¬ 1 < node.variations.length) (h2 : node.variations = []) :
    buildLoop fen d (node :: rest) = buildLoop fen d rest := by
  rw [buildLoop, if_neg h1]
  split
  · rfl
  · rename_i m child tail heq
    rw [h2] at heq
    cases heq

theorem buildLoop_cons_single (fen : Board → String)
    (d : List (String × String)) (node : PgnNode) (rest : List PgnNode)
    (m : String) (child : PgnNode) (tail : List (String × PgnNode))
    (h1 : ¬ 1 < node.variations.length)
    (h2 : node.variations = (m, child) :: tail) :
    buildLoop fen d (node :: rest) =
      buildLoop fen (dictInsert d (fen node.board) m)
        ((child.variations.map Prod.snd).reverse ++ rest) := by
  rw [buildLoop, if_neg h1]
  split
  · rename_i heq
    rw [h2] at heq
    cases heq
  · rename_i m' child' tail' heq
    rw [h2] at heq
    cases heq
    rfl

theorem conflictAt_leaf (n : PgnNode) (h : n.variations = []) :
    ∀ ms, ¬ ConflictAt n ms := by
  intro ms hc
  cases n with
  | mk b vs =>
    simp only [PgnNode.variations] at h
    subst h
    cases hc with
    | here b vars hlen => simp at hlen

theorem conflictAt_single (n : PgnNode) (m : String) (child : PgnNode)
    (h : n.variations = [(m, child)]) (ms : List String)
    (hc : ConflictAt n ms) :
    ∃ e ∈ child.variations, ConflictAt e.2 ms := by
  cases n with
  | mk b vs =>
    simp only [PgnNode.variations] at h
    subst h
    cases hc with
    | here b vars hlen => simp at hlen
    | there b m' c e ms hmem hce => exact ⟨e, hmem, hce⟩

theorem conflictAt_of_child (n : PgnNode) (m : String) (child : PgnNode)
    (h : n.variations = [(m, child)]) (e : String × PgnNode)
    (ms : List String) (hmem : e ∈ child.variations)
    (hce : ConflictAt e.2 ms) : ConflictAt n ms := by
  cases n with
  | mk b vs =>
    simp only [PgnNode.variations] at h
    subst h
    exact ConflictAt.there b m child e ms hmem hce

theorem conflictAt_here_of_len (n : PgnNode)
    (h : 1 < n.variations.length) : ConflictAt n n.board.moveStack := by
  cases n with
  | mk b vs =>
    simp only [PgnNode.variations] at h
    exact ConflictAt.here b vs h

theorem tail_nil_of_not_branch {n : PgnNode} {m : String} {child : PgnNode}
    {tail : List (String × PgnNode)} (h1 : ¬ 1 < n.variations.length)
    (h2 : n.variations = (m, child) :: tail) : tail = [] := by
  rw [h2] at h1
  simp only [List.length_cons, not_lt] at h1
  exact List.eq_nil_of_length_eq_zero (by omega)

theorem buildLoop_nil (fen : Board → String) (d : List (String × String)) :
    buildLoop fen d [] = .ok d := by
  rw [buildLoop]

theorem dictInsert_keys_subset (d : List (String × String)) (k v : String) :
    ∀ x ∈ (dictInsert d k v).map Prod.fst, x ∈ d.map Prod.fst ∨ x = k := by
  induction d with
  | nil =>
    intro x hx
    simp only [dictInsert, List.map_cons, List.map_nil, List.mem_singleton]
      at hx
    exact Or.inr hx
  | cons hd tl ih =>
    obtain ⟨k', v'⟩ := hd
    intro x hx
    by_cases hk : k' = k
    · rw [dictInsert, if_pos hk] at hx
      simp only [List.map_cons, List.mem_cons] at hx ⊢
      tauto
    · rw [dictInsert, if_neg hk] at hx
      simp only [List.map_cons, List.mem_cons] at hx ⊢
      rcases hx with rfl | hx
      · tauto
      · rcases ih x hx with h | h
        · tauto
        · tauto

theorem dictInsert_keys_nodup (d : List (String × String)) (k v : String)
    (h : (d.map Prod.fst).Nodup) :
    ((dictInsert d k v).map Prod.fst).Nodup := by
  induction d with
  | nil => simp [dictInsert]
  | cons hd tl ih =>
    obtain ⟨k', v'⟩ := hd
    simp only [List.map_cons, List.nodup_cons] at h
    by_cases hk : k' = k
    · rw [dictInsert, if_pos hk]
      simp only [List.map_cons, List.nodup_cons]
      exact ⟨hk ▸ h.1, h.2⟩
    · rw [dictInsert, if_neg hk]
      simp only [List.map_cons, List.nodup_cons]
      refine ⟨?_, ih h.2⟩
      intro hmem
      rcases dictInsert_keys_subset tl k v k' hmem with hh | hh
      · exact h.1 hh
      · exact hk hh

theorem buildLoop_ok_no_conflict (fen : Board → String)
    (d : List (String × String)) (ws : List PgnNode) :
    ∀ d', buildLoop fen d ws = .ok d' →
      ∀ n ∈ ws, ∀ ms, ¬ ConflictAt n ms := by
  induction d, ws using buildLoop.induct fen with
  | case1 d =>
    intro d' _ n hn
    cases hn
  | case2 d node rest hlen =>
    intro d' hok
    rw [buildLoop_cons_conflict fen d node rest hlen] at hok
    cases hok
  | case3 d node rest hlen heq ih =>
    intro d' hok n hn ms hc
    rw [buildLoop_cons_leaf fen d node rest hlen heq] at hok
    rcases List.mem_cons.mp hn with rfl | hn
    · exact conflictAt_leaf n heq ms hc
    · exact ih d' hok n hn ms hc
  | case4 d node rest hlen m child tail heq ih =>
    intro d' hok n hn ms hc
    rw [buildLoop_cons_single fen d node rest m child tail hlen heq] at hok
    rcases List.mem_cons.mp hn with rfl | hn
    · have htail : tail = [] := tail_nil_of_not_branch hlen heq
      subst htail
      obtain ⟨e, hmem, hce⟩ := conflictAt_single n m child heq ms hc
      refine ih d' hok e.2 ?_ ms hce
      simp only [List.mem_append, List.mem_reverse, List.mem_map]
      exact Or.inl ⟨e, hmem, rfl⟩
    · exact ih d' hok n (by simp [hn]) ms hc

theorem buildLoop_error_conflict (fen : Board → String)
    (d : List (String × String)) (ws : List PgnNode) :
    ∀ ms, buildLoop fen d ws = .error (.conflictingResponse ms) →
      ∃ n ∈ ws, ConflictAt n ms := by
  induction d, ws using buildLoop.induct fen with
  | case1 d =>
    intro ms h
    rw [buildLoop_nil] at h
    cases h
  | case2 d node rest hlen =>
    intro ms h
    rw [buildLoop_cons_conflict fen d node rest hlen] at h
    simp only [Except.error.injEq, Err.conflictingResponse.injEq] at h
    subst h
    exact ⟨node, List.mem_cons_self node rest, conflictAt_here_of_len node hlen⟩
  | case3 d node rest hlen heq ih =>
    intro ms h
    rw [buildLoop_cons_leaf fen d node rest hlen heq] at h
    obtain ⟨n, hn, hc⟩ := ih ms h
    exact ⟨n, List.mem_cons_of_mem node hn, hc⟩
  | case4 d node rest hlen m child tail heq ih =>
    intro ms h
    rw [buildLoop_cons_single fen d node rest m child tail hlen heq] at h
    obtain ⟨n, hn, hc⟩ := ih ms h
    rcases List.mem_append.mp hn with hn | hn
    · have htail : tail = [] := tail_nil_of_not_branch hlen heq
      subst htail
      obtain ⟨e, hmem, he⟩ := List.mem_map.mp (List.mem_reverse.mp hn)
      exact ⟨node, List.mem_cons_self node rest,
        conflictAt_of_child node m child heq e ms hmem (he ▸ hc)⟩
    · exact ⟨n, List.mem_cons_of_mem node hn, hc⟩

theorem buildLoop_shape (fen : Board → String) (d : List (String × String))
    (ws : List PgnNode) :
    (∃ d', buildLoop fen d ws = .ok d') ∨
    (∃ ms, buildLoop fen d ws = .error (.conflictingResponse ms)) := by
  induction d, ws using buildLoop.induct fen with
  | case1 d => exact Or.inl ⟨d, buildLoop_nil fen d⟩
  | case2 d node rest hlen =>
    exact Or.inr ⟨node.board.moveStack,
      buildLoop_cons_conflict fen d node rest hlen⟩
  | case3 d node rest hlen heq ih =>
    rw [buildLoop_cons_leaf fen d node rest hlen heq]
    exact ih
  | case4 d node rest hlen m child tail heq ih =>
    rw [buildLoop_cons_single fen d node rest m child tail hlen heq]
    exact ih

theorem buildLoop_keys_nodup (fen : Board → String)
    (d : List (String × String)) (ws : List PgnNode) :
    ∀ d', buildLoop fen d ws = .ok d' →
      (d.map Prod.fst).Nodup → (d'.map Prod.fst).Nodup := by
  induction d, ws using buildLoop.induct fen with
  | case1 d =>
    intro d' h hnd
    rw [buildLoop_nil] at h
    cases h
    exact hnd
  | case2 d node rest hlen =>
    intro d' h hnd
    rw [buildLoop_cons_conflict fen d node rest hlen] at h
    cases h
  | case3 d node rest hlen heq ih =>
    intro d' h hnd
    rw [buildLoop_cons_leaf fen d node rest hlen heq] at h
    exact ih d' h hnd
  | case4 d node rest hlen m child tail heq ih =>
    intro d' h hnd
    rw [buildLoop_cons_single fen d node rest m child tail hlen heq] at h
    exact ih d' h (dictInsert_keys_nodup d (fen node.board) m hnd)

theorem buildGames_ok_no_conflict (fen : Board → String) (is_black : Bool) :
    ∀ (games : List PgnNode) (d d' : List (String × String)),
    buildGames fen d games is_black = .ok d' →
    ∀ g ∈ games, ∀ n ∈ pgnNodesInit g is_black, ∀ ms, ¬ ConflictAt n ms := by
  intro games
  induction games with
  | nil =>
    intro d d' _ g hg
    cases hg
  | cons game rest ih =>
    intro d d' hok g hg n hn ms hc
    rw [buildGames] at hok
    cases hbl : buildLoop fen d (pgnNodesInit game is_black).reverse with
    | error e =>
      simp only [hbl] at hok
      cases hok
    | ok d2 =>
      simp only [hbl] at hok
      rcases List.mem_cons.mp hg with rfl | hg
      · exact buildLoop_ok_no_conflict fen d
          (pgnNodesInit g is_black).reverse d2 hbl n
          (List.mem_reverse.mpr hn) ms hc
      · exact ih d2 d' hok g hg n hn ms hc

theorem buildGames_error_conflict (fen : Board → String) (is_black : Bool) :
    ∀ (games : List PgnNode) (d : List (String × String)) (ms : List String),
    buildGames fen d games is_black = .error (.conflictingResponse ms) →
    ∃ g ∈ games, ∃ n ∈ pgnNodesInit g is_black, ConflictAt n ms := by
  intro games
  induction games with
  | nil =>
    intro d ms h
    cases h
  | cons game rest ih =>
    intro d ms h
    rw [buildGames] at h
    cases hbl : buildLoop fen d (pgnNodesInit game is_black).reverse with
    | error e =>
      simp only [hbl] at h
      cases h
      obtain ⟨n, hn, hc⟩ := buildLoop_error_conflict fen d
        (pgnNodesInit game is_black).reverse ms hbl
      exact ⟨game, List.mem_cons_self game rest, n,
        List.mem_reverse.mp hn, hc⟩
    | ok d2 =>
      simp only [hbl] at h
      obtain ⟨g, hg, n, hn, hc⟩ := ih d2 ms h
      exact ⟨g, List.mem_cons_of_mem game hg, n, hn, hc⟩

theorem buildGames_shape (fen : Board → String) (is_black : Bool) :
    ∀ (games : List PgnNode) (d : List (String × String)),
    (∃ d', buildGames fen d games is_black = .ok d') ∨
    (∃ ms, buildGames fen d games is_black =
      .error (.conflictingResponse ms)) := by
  intro games
  induction games with
  | nil =>
    intro d
    exact Or.inl ⟨d, rfl⟩
  | cons game rest ih =>
    intro d
    rcases buildLoop_shape fen d (pgnNodesInit game is_black).reverse with
      ⟨d2, hbl⟩ | ⟨ms, hbl⟩
    · rw [buildGames, hbl]
      exact ih d2
    · rw [buildGames, hbl]
      exact Or.inr ⟨ms, rfl⟩

theorem buildGames_keys_nodup (fen : Board → String) (is_black : Bool) :
    ∀ (games : List PgnNode) (d d' : List (String × String)),
    buildGames fen d games is_black = .ok d' →
    (d.map Prod.fst).Nodup → (d'.map Prod.fst).Nodup := by
  intro games
  induction games with
  | nil =>
    intro d d' h hnd
    cases h
    exact hnd
  | cons game rest ih =>
    intro d d' h hnd
    rw [buildGames] at h
    cases hbl : buildLoop fen d (pgnNodesInit game is_black).reverse with
    | error e =>
      simp only [hbl] at h
      cases h
    | ok d2 =>
      simp only [hbl] at h
      exact ih d2 d' h (buildLoop_keys_nodup fen d
        (pgnNodesInit game is_black).reverse d2 hbl hnd)

/-- C3: building the repertoire index from games in which some position with
the analyzed side to move (a node of the build traversal: a worklist root,
or reached by repeatedly following a unique continuation and one reply)
prescribes two or more continuations fails with the conflicting-response
error, whose reported move sequence is exactly the move stack of such a
conflicted position; and building from games with at most one continuation
at every such position succeeds, producing a map whose keys are distinct —
exactly one prescribed move per distinct indexed position. -/
theorem repertoire_conflict_detection (fen : Board → String)
    (games : List PgnNode) (is_black : Bool) :
    ((∃ g ∈ games, ∃ n ∈ pgnNodesInit g is_black, ∃ ms, ConflictAt n ms) →
      ∃ ms', Repertoire.init fen games is_black =
          .error (.conflictingResponse ms') ∧
        ∃ g ∈ games, ∃ n ∈ pgnNodesInit g is_black, ConflictAt n ms') ∧
    ((∀ g ∈ games, ∀ n ∈ pgnNodesInit g is_black, ∀ ms, ¬ ConflictAt n ms) →
      ∃ repertoire, Repertoire.init fen games is_black = .ok repertoire ∧
        (repertoire.response_map.map Prod.fst).Nodup) := by
  constructor
  · intro hconf
    rcases buildGames_shape fen is_black games [] with ⟨d', hok⟩ | ⟨ms, herr⟩
    · obtain ⟨g, hg, n, hn, ms, hc⟩ := hconf
      exact absurd hc
        (buildGames_ok_no_conflict fen is_black games [] d' hok g hg n hn ms)
    · refine ⟨ms, ?_, buildGames_error_conflict fen is_black games [] ms herr⟩
      rw [Repertoire.init, herr]
  · intro hnoc
    rcases buildGames_shape fen is_black games [] with ⟨d', hok⟩ | ⟨ms, herr⟩
    · refine ⟨Repertoire.mk d', ?_, ?_⟩
      · rw [Repertoire.init, hok]
      · exact buildGames_keys_nodup fen is_black games [] d' hok (by simp)
    · obtain ⟨g, hg, n, hn, hc⟩ :=
        buildGames_error_conflict fen is_black games [] ms herr
      exact absurd hc (hnoc g hg n hn ms)

theorem repertoire_conflict_detection_witness :
    ∃ ms', Repertoire.init exFen [exConflictGame] false =
        .error (.conflictingResponse ms') ∧
      ∃ g ∈ [exConflictGame], ∃ n ∈ pgnNodesInit g false, ConflictAt n ms' :=
  (repertoire_conflict_detection exFen [exConflictGame] false).1
    ⟨exConflictGame, List.mem_singleton.mpr rfl, exConflictGame,
      by simp [pgnNodesInit], exConflictGame.board.moveStack,
      conflictAt_here_of_len exConflictGame (by decide)⟩
